import Mathlib

/-!
Verification development for the Tangut translator's lexical dictionary
engine (`tangut_translator.py`).  The Python source is shallowly embedded:
Python dicts become insertion-ordered association lists over `String` keys,
records become structures of raw string fields, and the regex-driven field
splitting is modelled character-by-character over the relevant character
classes.  Python's `str.strip`, `str.split`, `str.lower` and the regex
classes `\w`/`\s` are modelled per Unicode scalar value; `.lower()` maps
each scalar to a scalar sequence, covering the ASCII case mapping and the
one-to-many special casing U+0130 → U+0069 U+0307, so that the
case-expansion behaviour of Python's `str.lower` is visible to the
normalization claims.
-/

namespace Tangut

/-- Model of the regex class `\s` (whitespace) for the scalars appearing in
this corpus: space, tab, LF, VT, FF, CR. -/
def isSpaceChar (c : Char) : Bool :=
  decide (c.toNat = 32) || decide (c.toNat = 9) || decide (c.toNat = 10) ||
    decide (c.toNat = 13) || decide (c.toNat = 11) || decide (c.toNat = 12)

/-- Model of the regex class `\w` (alphanumerics and underscore): ASCII
digits, ASCII letters, underscore, and every scalar ≥ 128 except combining
marks — Python's `\w` requires alphanumeric, and combining diacritical
marks (U+0300–U+036F, category Mn, e.g. the U+0307 produced by lowercasing
U+0130) are not; the other non-ASCII scalars occurring in this corpus (CJK
ideographs, Tangut ideographs, cased Latin letters) all are. -/
def isWordChar (c : Char) : Bool :=
  decide (48 ≤ c.toNat ∧ c.toNat ≤ 57) || decide (65 ≤ c.toNat ∧ c.toNat ≤ 90) ||
    decide (97 ≤ c.toNat ∧ c.toNat ≤ 122) || decide (c.toNat = 95) ||
    (decide (128 ≤ c.toNat) && !decide (0x300 ≤ c.toNat ∧ c.toNat ≤ 0x36F))

/-- A scalar kept by `re.sub(r'[^\w\s]', '', ·)`. -/
def wordOrSpace (c : Char) : Bool :=
  isWordChar c || isSpaceChar c

/-- Model of `str.lower` per scalar: a scalar maps to a scalar *sequence*,
because Python's casing is the full Unicode mapping and can expand — the
special casing U+0130 (`İ`) → U+0069 U+0307 is carried explicitly, ASCII
uppercase maps to ASCII lowercase, every other scalar is unchanged. -/
def lowerScalar (c : Char) : List Char :=
  if c.toNat = 0x130 then ['i', '\u0307']
  else if 65 ≤ c.toNat ∧ c.toNat ≤ 90 then [Char.ofNat (c.toNat + 32)]
  else [c]

/-- Model of `str.strip()`: drop leading and trailing whitespace. -/
def pyStrip (s : String) : String :=
  String.mk (((s.data.dropWhile isSpaceChar).reverse.dropWhile isSpaceChar).reverse)

/-- `re.sub(r'[^\w\s]', '', s).lower()` — the word/phrase key normalization
used by `add_to_english_map` and `translate_english_to_tangut`: drop the
non-word, non-space scalars, then lowercase the result. -/
def normalizeKey (s : String) : String :=
  String.mk (((s.data.filter wordOrSpace).map lowerScalar).flatten)

/-- Helper for `pySplit`: accumulates the current in-progress word
(reversed) while scanning the remaining scalars. -/
def pySplitGo : List Char → List Char → List String
  | cur, [] => if cur.isEmpty then [] else [String.mk cur.reverse]
  | cur, c :: cs =>
    if isSpaceChar c then
      if cur.isEmpty then pySplitGo [] cs
      else String.mk cur.reverse :: pySplitGo [] cs
    else pySplitGo (c :: cur) cs

/-- Model of `str.split()` (no argument): split on whitespace runs,
producing no empty words. -/
def pySplit (s : String) : List String :=
  pySplitGo [] s.data

/-- The Tangut block `[\U00017000-\U000187FF]` of `TANGUT_CHAR_REGEX`. -/
def isTangutChar (c : Char) : Bool :=
  decide (0x17000 ≤ c.toNat ∧ c.toNat ≤ 0x187FF)

/-- One record of `LiFanwenTangutList.json`, with the raw string fields the
loader reads (`Character`, `Meaning`, `Keyword`, `Phonetics`,
`Chinese Character`); a missing field is the empty string. -/
structure AtomicRecord where
  character : String
  meaning : String
  keyword : String
  phonetics : String
  chineseChar : String
deriving DecidableEq

/-- One record of `TangutCompoundWordsProposed.json`, with the raw string
fields the loader reads (`Modern Concept`, `Proposed Tangut Word`,
`Literal Tangut Meaning`). -/
structure CompoundRecord where
  modernConcept : String
  proposedRaw : String
  literalMeaning : String
deriving DecidableEq

/-- A value of `tangut_char_data`: `{'phonetics': …, 'meanings': […]}`. -/
structure CharEntry where
  phonetics : String
  meanings : List String
deriving DecidableEq

/-- A value appended to `english_to_tangut` lists:
`{'char': …, 'phonetics': …, 'original_meaning': …}`. -/
structure Candidate where
  char : String
  phonetics : String
  originalMeaning : String
deriving DecidableEq, Inhabited

/-- A Python dict with string keys: an insertion-ordered association list
whose keys are kept unique by the update operations below. -/
abbrev Dict (α : Type) := List (String × α)

/-- `d.get(k)` on a Python dict. -/
def dictLookup {α : Type} : Dict α → String → Option α
  | [], _ => none
  | (k', v) :: t, k => if k' = k then some v else dictLookup t k

/-- `k in d` on a Python dict. -/
def dictContains {α : Type} (d : Dict α) (k : String) : Bool :=
  (dictLookup d k).isSome

/-- `d[k] = v` on a Python dict: replace in place if present, else append. -/
def dictSet {α : Type} : Dict α → String → α → Dict α
  | [], k, v => [(k, v)]
  | (k', v') :: t, k, v =>
    if k' = k then (k', v) :: t else (k', v') :: dictSet t k v

/-- In-place modification `d[k] = f d[k]` of an existing key (no effect if
the key is absent, which the loader never relies on). -/
def modifyEntry {α : Type} : Dict α → String → (α → α) → Dict α
  | [], _, _ => []
  | (k', v) :: t, k, f =>
    if k' = k then (k', f v) :: t else (k', v) :: modifyEntry t k f

/-- `d.setdefault(k, []).append(a)` on a dict of lists. -/
def setdefaultAppend {α : Type} : Dict (List α) → String → α → Dict (List α)
  | [], k, a => [(k, [a])]
  | (k', v) :: t, k, a =>
    if k' = k then (k', v ++ [a]) :: t else (k', v) :: setdefaultAppend t k a

/-- The sentinel stored when an atomic record's `Phonetics` is blank. -/
def missingPhon : String := "<?MISSING_PHONETICS?>"

/-- The sentinel stored when a compound record carries no parseable
parenthesized phonetic group. -/
def naCompoundPhon : String := "<?N/A_COMPOUND_PHONETICS?>"

/-- The four dictionaries accumulated by `load_tangut_data`. -/
structure LoadState where
  tangutCharData : Dict CharEntry
  englishToTangut : Dict (List Candidate)
  tangutToChinese : Dict String
  chineseToTangut : Dict (List String)
deriving DecidableEq

/-- The empty initial state of `load_tangut_data`. -/
def initState : LoadState := ⟨[], [], [], []⟩

/-- `if m not in meanings: meanings.append(m)`. -/
def addNewMeaning (l : List String) (m : String) : List String :=
  if m ∈ l then l else l ++ [m]

/-- Append `m` to `tangut_char_data[char]['meanings']` unless present. -/
def addMeaningTo (d : Dict CharEntry) (char m : String) : Dict CharEntry :=
  modifyEntry d char (fun e => { e with meanings := addNewMeaning e.meanings m })

/-- `add_to_english_map(key_phrase, tangut_char, phonetics_info,
original_meaning_for_context)`: add the candidate under the normalized full
phrase, then under each whitespace-separated word of it. -/
def addToEnglishMap (m : Dict (List Candidate)) (keyPhrase char phon orig : String) :
    Dict (List Candidate) :=
  if keyPhrase = "" then m
  else
    let nk := normalizeKey keyPhrase
    if nk = "" then m
    else
      let entry : Candidate := ⟨char, phon, orig⟩
      let m1 := setdefaultAppend m nk entry
      (pySplit nk).foldl
        (fun acc w => if w = "" then acc else setdefaultAppend acc w entry) m1

/-- Processing of one Li Fanwen (atomic) record — the body of the first
loop of `load_tangut_data`. -/
def processAtomic (st : LoadState) (r : AtomicRecord) : LoadState :=
  let char := pyStrip r.character
  let meaningPhrase := pyStrip r.meaning
  let keywordPhrase := pyStrip r.keyword
  let phonetics := pyStrip r.phonetics
  let chineseChar := pyStrip r.chineseChar
  if char = "" then st
  else
    let phoneticsToStore := if phonetics = "" then missingPhon else phonetics
    let d1 :=
      if dictContains st.tangutCharData char then
        modifyEntry st.tangutCharData char (fun e =>
          if e.phonetics = missingPhon ∧ phoneticsToStore ≠ missingPhon then
            { e with phonetics := phoneticsToStore }
          else e)
      else st.tangutCharData ++ [(char, ⟨phoneticsToStore, []⟩)]
    let d2 := if meaningPhrase ≠ "" ∧ meaningPhrase ≠ "?" then
        addMeaningTo d1 char meaningPhrase else d1
    let e1 := if meaningPhrase ≠ "" ∧ meaningPhrase ≠ "?" then
        addToEnglishMap st.englishToTangut meaningPhrase char phoneticsToStore meaningPhrase
      else st.englishToTangut
    let d3 := if keywordPhrase ≠ "" ∧ keywordPhrase ≠ "?" then
        addMeaningTo d2 char keywordPhrase else d2
    let e2 := if keywordPhrase ≠ "" ∧ keywordPhrase ≠ "?" then
        addToEnglishMap e1 keywordPhrase char phoneticsToStore
          (if meaningPhrase ≠ "" then meaningPhrase else keywordPhrase)
      else e1
    let t2c := if chineseChar ≠ "" then
        dictSet st.tangutToChinese char chineseChar else st.tangutToChinese
    let c2t := if chineseChar ≠ "" then
        setdefaultAppend st.chineseToTangut chineseChar char else st.chineseToTangut
    ⟨d3, e2, t2c, c2t⟩

/-- The optional trailing `(?: \(([^)]+)\))?` group of the proposed-word
regex, applied to what follows the Tangut run: a single space, `(`, at
least one non-`)` scalar, then `)` (anything after is ignored, as
`re.match` does not anchor the end). -/
def parsePhonGroup : List Char → Option String
  | ' ' :: '(' :: rest =>
    let inner := rest.takeWhile (fun c => !(c == ')'))
    if inner.isEmpty then none
    else if (rest.dropWhile (fun c => !(c == ')'))).isEmpty then none
    else some (String.mk inner)
  | _ => none

/-- `re.match(rf"({TANGUT_CHAR_REGEX})(?: \(([^)]+)\))?", raw)` and the
following extraction: the greedy Tangut-block run is the unit and the
optional parenthesized group the phonetics; with no Tangut run at the
start the whole raw field is the unit; with no group the phonetics is the
compound sentinel. -/
def parseProposed (raw : String) : String × String :=
  let run := raw.data.takeWhile isTangutChar
  if run.isEmpty then (raw, naCompoundPhon)
  else
    match parsePhonGroup (raw.data.dropWhile isTangutChar) with
    | some inner => (pyStrip (String.mk run), pyStrip inner)
    | none => (pyStrip (String.mk run), naCompoundPhon)

/-- `re.match(r"([^()]+)(?: \([^)]+\))?", modern_concept)` and the
extraction of `group(1).strip()` (the whole field when the match fails,
i.e. when the field starts with a parenthesis). -/
def englishPart (mc : String) : String :=
  let run := mc.data.takeWhile (fun c => !(c == '(' || c == ')'))
  if run.isEmpty then mc else pyStrip (String.mk run)

/-- Processing of one proposed-compound record — the body of the second
loop of `load_tangut_data`. -/
def processCompound (st : LoadState) (r : CompoundRecord) : LoadState :=
  let modernConcept := pyStrip r.modernConcept
  let raw := pyStrip r.proposedRaw
  let literalMeaning := pyStrip r.literalMeaning
  if raw = "" then st
  else
    let parsed := parseProposed raw
    let e1 := if modernConcept ≠ "" then
        addToEnglishMap st.englishToTangut (englishPart modernConcept)
          parsed.1 parsed.2 literalMeaning
      else st.englishToTangut
    let e2 := if literalMeaning ≠ "" ∧ literalMeaning ≠ "?" then
        addToEnglishMap e1 literalMeaning parsed.1 parsed.2 literalMeaning
      else e1
    { st with englishToTangut := e2 }

/-- Membership-tracking pass of the `english_to_tangut` dedup loop: `seen`
is the set of already-emitted entries. -/
def dedupEntriesAux : List Candidate → List Candidate → List Candidate
  | _, [] => []
  | seen, e :: t =>
    if e ∈ seen then dedupEntriesAux seen t
    else e :: dedupEntriesAux (seen ++ [e]) t

/-- The per-key dedup of `english_to_tangut` values: keep the first
occurrence of each `(char, phonetics, original_meaning)` entry, in order
(the Python code keys the `seen` set by the tuple of the sorted dict
items, which identifies entries exactly up to equality of all three
fields). -/
def dedupEntries (l : List Candidate) : List Candidate :=
  dedupEntriesAux [] l

/-- First-occurrence dedup for lists of strings. -/
def dedupStringsAux : List String → List String → List String
  | _, [] => []
  | seen, s :: t =>
    if s ∈ seen then dedupStringsAux seen t
    else s :: dedupStringsAux (seen ++ [s]) t

/-- `set(lst)` materialized as the distinct elements of `lst`. -/
def dedupStrings (l : List String) : List String :=
  dedupStringsAux [] l

/-- `sorted` on a list of strings. -/
def sortStrings (l : List String) : List String :=
  List.insertionSort (fun a b => a ≤ b) l

/-- The final `english_to_tangut` dedup loop. -/
def finalizeEnglish (m : Dict (List Candidate)) : Dict (List Candidate) :=
  m.map (fun p => (p.1, dedupEntries p.2))

/-- The final `chinese_to_tangut` loop: `sorted(list(set(lst)))`. -/
def finalizeChinese (m : Dict (List String)) : Dict (List String) :=
  m.map (fun p => (p.1, sortStrings (dedupStrings p.2)))

/-- The two loader passes of `load_tangut_data` without finalization. -/
def buildState (lf : List AtomicRecord) (cd : List CompoundRecord) : LoadState :=
  cd.foldl processCompound (lf.foldl processAtomic initState)

/-- The quadruple of indexes returned by `load_tangut_data`. -/
abbrev Indexes :=
  Dict CharEntry × Dict (List Candidate) × Dict String × Dict (List String)

/-- `load_tangut_data`: each argument is the result of `load_json_data`
(`none` models the `None` returned for an absent, malformed or undecodable
file). Loaded passes run as in the source; if either load failed the
function returns `None, None, None, None`, modelled as `none`. -/
def loadTangutData (lf : Option (List AtomicRecord))
    (cd : Option (List CompoundRecord)) : Option Indexes :=
  let st1 := match lf with
    | some l => l.foldl processAtomic initState
    | none => initState
  let st2 := match cd with
    | some l => l.foldl processCompound st1
    | none => st1
  match lf, cd with
  | some _, some _ =>
    some (st2.tangutCharData, finalizeEnglish st2.englishToTangut,
      st2.tangutToChinese, finalizeChinese st2.chineseToTangut)
  | _, _ => none

/-- The `tangut_char_data` component of a loader result (`[]` if the load
failed). -/
def symIndex : Option Indexes → Dict CharEntry
  | some q => q.1
  | none => []

/-- The `english_to_tangut` component of a loader result (`[]` if the load
failed). -/
def engIndex : Option Indexes → Dict (List Candidate)
  | some q => q.2.1
  | none => []

/-- The structured content of a `translate_tangut_to_english` report: the
per-scalar detail lines, the sorted set of combined meanings, and the
combined pronunciation list. -/
structure T2EResult where
  detailed : List String
  combinedMeanings : List String
  combinedPhonetics : List String
deriving DecidableEq

/-- `', '.join(meanings) if meanings else 'No meaning found'`. -/
def meaningsRender (ms : List String) : String :=
  if ms.isEmpty then "No meaning found" else String.intercalate ", " ms

/-- A single apostrophe, as used by the report formatting. -/
def q1 : String := "'"

/-- The body of the `for char in tangut_text` loop of
`translate_tangut_to_english`, acting on the accumulator
`(detailed_results, combined_meanings, combined_phonetics_list)`. -/
def t2eStep (d : Dict CharEntry) (acc : List String × List String × List String)
    (c : Char) : List String × List String × List String :=
  match dictLookup d (String.singleton c) with
  | some e =>
    (acc.1 ++ [q1 ++ String.singleton c ++ q1 ++ " (" ++ e.phonetics ++ "): " ++
        meaningsRender e.meanings],
      acc.2.1 ++ e.meanings, acc.2.2 ++ [e.phonetics])
  | none =>
    (acc.1 ++ [q1 ++ String.singleton c ++ q1 ++ ": UNKNOWN CHARACTER"],
      acc.2.1, acc.2.2 ++ ["<?>"])

/-- `translate_tangut_to_english(tangut_text, t_data_dict)`: `none` models
the "service not available" early return on an empty/missing dict;
otherwise the per-scalar loop followed by the sorted-set rendering of the
combined meanings. -/
def translateTangutToEnglish (text : String) (d : Dict CharEntry) : Option T2EResult :=
  if d.isEmpty then none
  else
    let z := text.data.foldl (t2eStep d) ([], [], [])
    some ⟨z.1, sortStrings (dedupStrings z.2.1), z.2.2⟩

/-- The structured content of a `translate_english_to_tangut` report. -/
structure E2TResult where
  detailed : List String
  combinedChars : List String
  combinedPhonetics : List String
deriving DecidableEq

/-- The sort key order of `sorted(matches, key=lambda x: (x['char'],
x['phonetics']))`: Python tuple comparison of the two strings. -/
def candLE (a b : Candidate) : Prop :=
  a.char < b.char ∨ (a.char = b.char ∧ a.phonetics ≤ b.phonetics)

instance : DecidableRel candLE := fun a b => by
  unfold candLE; infer_instance

instance : IsTotal Candidate candLE where
  total a b := by
    rcases lt_trichotomy a.char b.char with h | h | h
    · exact Or.inl (Or.inl h)
    · rcases le_total a.phonetics b.phonetics with h' | h'
      · exact Or.inl (Or.inr ⟨h, h'⟩)
      · exact Or.inr (Or.inr ⟨h.symm, h'⟩)
    · exact Or.inr (Or.inl h)

instance : IsTrans Candidate candLE where
  trans a b c hab hbc := by
    rcases hab with hab | ⟨hab, hab'⟩
    · rcases hbc with hbc | ⟨hbc, _⟩
      · exact Or.inl (hab.trans hbc)
      · exact Or.inl (hbc ▸ hab)
    · rcases hbc with hbc | ⟨hbc, hbc'⟩
      · exact Or.inl (hab ▸ hbc)
      · exact Or.inr ⟨hab.trans hbc, hab'.trans hbc'⟩

/-- `sorted(matches, key=lambda x: (x['char'], x['phonetics']))` — Python's
stable sort by the pair, modelled as insertion sort by `candLE` (stable for
this non-strict order and hence list-equal to Python's sort). -/
def sortMatches (ms : List Candidate) : List Candidate :=
  List.insertionSort candLE ms

/-- `f"'{char}' ({phonetics}) [from: '{original_meaning}']"`. -/
def renderOption (m : Candidate) : String :=
  q1 ++ m.char ++ q1 ++ " (" ++ m.phonetics ++ ") [from: " ++ q1 ++
    m.originalMeaning ++ q1 ++ "]"

/-- The `else` branch of the word loop (`UNKNOWN WORD`), reached both when
the word is absent and when its stored list is empty (Python truthiness of
`matches`). -/
def e2tUnknown (acc : List String × List String × List String) (w : String) :
    List String × List String × List String :=
  (acc.1 ++ [q1 ++ w ++ q1 ++ ": UNKNOWN WORD"], acc.2.1 ++ ["<?>"],
    acc.2.2 ++ ["<?ph?>"])

/-- The body of the `for word in words` loop of
`translate_english_to_tangut`. -/
def e2tStep (dict : Dict (List Candidate))
    (acc : List String × List String × List String) (w : String) :
    List String × List String × List String :=
  match dictLookup dict w with
  | some ms =>
    if ms.isEmpty then e2tUnknown acc w
    else
      let sm := sortMatches ms
      (acc.1 ++ [q1 ++ w ++ q1 ++ ": " ++
          String.intercalate "; " (sm.map renderOption)],
        acc.2.1 ++ [sm.headI.char], acc.2.2 ++ [sm.headI.phonetics])
  | none => e2tUnknown acc w

/-- `translate_english_to_tangut(english_text, e_to_t_dict)`: normalize
and split the input, then the word loop. -/
def translateEnglishToTangut (text : String) (dict : Dict (List Candidate)) :
    Option E2TResult :=
  if dict.isEmpty then none
  else
    let words := pySplit (normalizeKey text)
    let z := words.foldl (e2tStep dict) ([], [], [])
    some ⟨z.1, z.2.1, z.2.2⟩

/-- The detail line `translate_tangut_to_english` emits for one input
scalar: a direct single-scalar lookup. -/
def detailLine (d : Dict CharEntry) (c : Char) : String :=
  match dictLookup d (String.singleton c) with
  | some e => q1 ++ String.singleton c ++ q1 ++ " (" ++ e.phonetics ++ "): " ++
      meaningsRender e.meanings
  | none => q1 ++ String.singleton c ++ q1 ++ ": UNKNOWN CHARACTER"

/-- The pronunciation `translate_tangut_to_english` emits for one scalar. -/
def phonOf (d : Dict CharEntry) (c : Char) : String :=
  match dictLookup d (String.singleton c) with
  | some e => e.phonetics
  | none => "<?>"

/-- The meanings one scalar contributes to the combined meaning set. -/
def charMeanings (d : Dict CharEntry) (c : Char) : List String :=
  match dictLookup d (String.singleton c) with
  | some e => e.meanings
  | none => []

/- ### Helper lemmas -/

theorem flatten_map_lowerScalar_self (L : List Char)
    (h : ∀ d ∈ L, lowerScalar d = [d]) : (L.map lowerScalar).flatten = L := by
  induction L with
  | nil => simp
  | cons a t ih =>
    simp only [List.map_cons, List.flatten_cons, h a (by simp)]
    rw [ih (fun d hd => h d (by simp [hd]))]
    rfl

theorem t2eFold (d : Dict CharEntry) (l : List Char)
    (acc : List String × List String × List String) :
    l.foldl (t2eStep d) acc =
      (acc.1 ++ l.map (detailLine d), acc.2.1 ++ (l.map (charMeanings d)).flatten,
        acc.2.2 ++ l.map (phonOf d)) := by
  induction l generalizing acc with
  | nil => simp
  | cons c t ih =>
    rw [List.foldl_cons, ih]
    unfold t2eStep detailLine charMeanings phonOf
    cases h : dictLookup d (String.singleton c) <;> simp [h]

theorem takeWhile_append_all {α : Type} {p : α → Bool} (l1 l2 : List α)
    (h : ∀ c ∈ l1, p c = true) :
    (l1 ++ l2).takeWhile p = l1 ++ l2.takeWhile p := by
  induction l1 with
  | nil => simp
  | cons a t ih =>
    simp only [List.cons_append, List.takeWhile_cons, h a (by simp), if_true]
    rw [ih (fun c hc => h c (by simp [hc]))]

theorem processCompound_tangutCharData (st : LoadState) (r : CompoundRecord) :
    (processCompound st r).tangutCharData = st.tangutCharData := by
  simp only [processCompound]
  split <;> rfl

theorem processCompound_tangutToChinese (st : LoadState) (r : CompoundRecord) :
    (processCompound st r).tangutToChinese = st.tangutToChinese := by
  simp only [processCompound]
  split <;> rfl

theorem processCompound_chineseToTangut (st : LoadState) (r : CompoundRecord) :
    (processCompound st r).chineseToTangut = st.chineseToTangut := by
  simp only [processCompound]
  split <;> rfl

theorem foldl_processCompound_tangutCharData (cd : List CompoundRecord) :
    ∀ st : LoadState, (cd.foldl processCompound st).tangutCharData = st.tangutCharData := by
  induction cd with
  | nil => intro st; rfl
  | cons r t ih =>
    intro st
    rw [List.foldl_cons, ih, processCompound_tangutCharData]

theorem mem_dedupEntriesAux {x : Candidate} :
    ∀ (seen l : List Candidate), x ∈ dedupEntriesAux seen l → x ∈ l ∧ x ∉ seen := by
  intro seen l
  induction l generalizing seen with
  | nil => simp [dedupEntriesAux]
  | cons e t ih =>
    unfold dedupEntriesAux
    split
    · intro hx
      have := ih _ hx
      exact ⟨by simp [this.1], this.2⟩
    · next hns =>
      intro hx
      rcases List.mem_cons.mp hx with rfl | hx'
      · exact ⟨by simp, hns⟩
      · have := ih _ hx'
        refine ⟨by simp [this.1], fun hs => this.2 (by simp [hs])⟩

theorem nodup_dedupEntriesAux :
    ∀ (l seen : List Candidate), (dedupEntriesAux seen l).Nodup := by
  intro l
  induction l with
  | nil => intro seen; simp [dedupEntriesAux]
  | cons e t ih =>
    intro seen
    unfold dedupEntriesAux
    split
    · exact ih seen
    · refine List.Nodup.cons ?_ (ih _)
      intro hmem
      have := mem_dedupEntriesAux _ _ hmem
      exact this.2 (by simp)

theorem sublist_dedupEntriesAux :
    ∀ (l seen : List Candidate), List.Sublist (dedupEntriesAux seen l) l := by
  intro l
  induction l with
  | nil => intro seen; simp [dedupEntriesAux]
  | cons e t ih =>
    intro seen
    unfold dedupEntriesAux
    split
    · exact (ih seen).cons e
    · exact (ih _).cons₂ e

theorem mem_dedupEntriesAux_of_mem {x : Candidate} :
    ∀ (seen l : List Candidate), x ∈ l → x ∈ dedupEntriesAux seen l ∨ x ∈ seen := by
  intro seen l
  induction l generalizing seen with
  | nil => simp
  | cons e t ih =>
    intro hx
    unfold dedupEntriesAux
    split
    · next hes =>
      rcases List.mem_cons.mp hx with rfl | hx'
      · exact Or.inr hes
      · exact ih seen hx'
    · next hes =>
      rcases List.mem_cons.mp hx with rfl | hx'
      · exact Or.inl (by simp)
      · rcases ih (seen ++ [e]) hx' with h | h
        · exact Or.inl (by simp [h])
        · rcases List.mem_append.mp h with h | h
          · exact Or.inr h
          · refine Or.inl ?_
            simp only [List.mem_singleton] at h
            simp [h]

theorem mem_dedupEntries_iff (x : Candidate) (l : List Candidate) :
    x ∈ dedupEntries l ↔ x ∈ l := by
  constructor
  · intro h; exact (mem_dedupEntriesAux _ _ h).1
  · intro h
    rcases mem_dedupEntriesAux_of_mem [] l h with h' | h'
    · exact h'
    · simp at h'

theorem dictLookup_finalizeEnglish (m : Dict (List Candidate)) (k : String) :
    dictLookup (finalizeEnglish m) k = (dictLookup m k).map dedupEntries := by
  induction m with
  | nil => rfl
  | cons p t ih =>
    unfold finalizeEnglish at *
    simp only [List.map_cons]
    unfold dictLookup
    split <;> simp [ih]

theorem dedupEntries_pair (e : Candidate) : dedupEntries [e, e] = [e] := by
  simp [dedupEntries, dedupEntriesAux]

/- ### Concrete instances used by counterexamples and witnesses -/

/-- A symbol index holding both the two-scalar key `"AB"` and its
one-scalar prefix `"A"`. -/
def c1Index : Dict CharEntry :=
  [("AB", ⟨"p1", ["compound"]⟩), ("A", ⟨"p2", ["atom"]⟩)]

/-- An atomic record for key `𘞗` with phonetics `p1` and meaning `seed`. -/
def c2Atomic : AtomicRecord := ⟨"𘞗", "seed", "", "p1", ""⟩

/-- A compound record whose extracted unit is the same key `𘞗`, with
phonetics `p2` and literal meaning `lit`. -/
def c2Compound : CompoundRecord := ⟨"", "𘞗 (p2)", "lit"⟩

/-- A compound record whose modern-concept field has a cross-script prefix
`新` and a parenthesized English group `(new)`. -/
def c3Compound : CompoundRecord := ⟨"新 (new)", "𘞗", ""⟩

/-- A compound record whose proposed-unit field has no trailing
parenthesized phonetic group. -/
def c5Compound : CompoundRecord := ⟨"c", "𘞗", "lit"⟩

/- ### Claim theorems -/

/-- C1 counterexample: with both `"AB"` and `"A"` in the symbol index,
translating `"AB"` emits two per-scalar spans — `"A"` (matched) and `"B"`
(unknown) — and never the single compound span `"AB"` that the claim
requires. -/
theorem c1_longest_match_fails :
    translateTangutToEnglish "AB" c1Index =
      some ⟨["'A' (p2): atom", "'B': UNKNOWN CHARACTER"], ["atom"], ["p2", "<?>"]⟩ ∧
    (translateTangutToEnglish "AB" c1Index).map T2EResult.detailed ≠
      some ["'AB' (p1): compound"] := by
  constructor
  · decide
  · decide

/-- C1 (amended): Tangut-to-English translation performs no longest-match
segmentation: it walks the input one Unicode scalar at a time, and every
emitted span is the result of a direct single-scalar index lookup (matched
line, contributed meanings and pronunciation per scalar); a multi-scalar
index key is never consulted. -/
theorem c1_per_scalar_translation (d : Dict CharEntry) (text : String)
    (hd : d ≠ []) :
    translateTangutToEnglish text d =
      some ⟨text.data.map (detailLine d),
        sortStrings (dedupStrings (text.data.map (charMeanings d)).flatten),
        text.data.map (phonOf d)⟩ := by
  unfold translateTangutToEnglish
  rw [if_neg (by simpa using hd)]
  rw [t2eFold]
  simp

/-- C1 witness: the amended per-scalar description applied to the concrete
index and input of the counterexample. -/
theorem c1_per_scalar_translation_witness :
    translateTangutToEnglish "AB" c1Index =
      some ⟨"AB".data.map (detailLine c1Index),
        sortStrings (dedupStrings ("AB".data.map (charMeanings c1Index)).flatten),
        "AB".data.map (phonOf c1Index)⟩ :=
  c1_per_scalar_translation c1Index "AB" (by decide)

/-- C2 counterexample: after inserting the atomic record for `𘞗` and then
a compound record whose extracted unit is `𘞗` (with phonetics `p2`), the
symbol-index entry for `𘞗` is still the atomic `{p1, [seed]}` — the
compound record did not replace it. -/
theorem c2_compound_replace_fails :
    dictLookup (symIndex (loadTangutData (some [c2Atomic]) (some [c2Compound]))) "𘞗"
      = some ⟨"p1", ["seed"]⟩ ∧
    dictLookup (symIndex (loadTangutData (some [c2Atomic]) (some [c2Compound]))) "𘞗"
      ≠ some ⟨"p2", ["lit"]⟩ := by
  constructor
  · decide
  · decide

/-- C2 (amended): compound records never modify the symbol index at all:
processing a compound record leaves `tangut_char_data` unchanged, and the
symbol index returned by the loader is exactly the result of the
atomic-record pass. -/
theorem c2_compound_preserves_symbol_index :
    (∀ (st : LoadState) (r : CompoundRecord),
      (processCompound st r).tangutCharData = st.tangutCharData) ∧
    ∀ (lf : List AtomicRecord) (cd : List CompoundRecord),
      symIndex (loadTangutData (some lf) (some cd)) =
        (lf.foldl processAtomic initState).tangutCharData := by
  refine ⟨processCompound_tangutCharData, ?_⟩
  intro lf cd
  show (cd.foldl processCompound (lf.foldl processAtomic initState)).tangutCharData = _
  exact foldl_processCompound_tangutCharData cd _

/-- C3 counterexample: for the modern-concept field `新 (new)` the claim
requires the parenthesized group's contents `new` to become the English
part (and the prefix `新` the cross-script part); instead the word index
gains the key `新` and no key `new`. -/
theorem c3_paren_extraction_fails :
    dictLookup (engIndex (loadTangutData (some []) (some [c3Compound]))) "new" = none ∧
    dictLookup (engIndex (loadTangutData (some []) (some [c3Compound]))) "新"
      = some [⟨"𘞗", "<?N/A_COMPOUND_PHONETICS?>", ""⟩] := by
  constructor
  · decide
  · decide

/-- C3 (amended): modern-concept extraction takes everything before the
first parenthesis (trimmed) as the single extracted part, regardless of
script; the parenthesized group is discarded, and compound records never
contribute to either cross-script index. -/
theorem c3_before_paren_extraction (pre rest : List Char) (hpre : pre ≠ [])
    (hnp : ∀ c ∈ pre, (!(c == '(' || c == ')')) = true) :
    englishPart (String.mk (pre ++ '(' :: rest)) = pyStrip (String.mk pre) ∧
    ∀ (st : LoadState) (r : CompoundRecord),
      (processCompound st r).tangutToChinese = st.tangutToChinese ∧
      (processCompound st r).chineseToTangut = st.chineseToTangut := by
  constructor
  · unfold englishPart
    have hrun : (pre ++ '(' :: rest).takeWhile (fun c => !(c == '(' || c == ')'))
        = pre := by
      rw [takeWhile_append_all pre _ hnp]
      simp [List.takeWhile_cons]
    simp only [hrun]
    rw [if_neg (by simpa using hpre)]
  · intro st r
    exact ⟨processCompound_tangutToChinese st r, processCompound_chineseToTangut st r⟩

/-- C3 witness: the amended extraction applied to the counterexample's
field `新 (new)`: the part before the parenthesis, `新`, is extracted. -/
theorem c3_before_paren_extraction_witness :
    englishPart (String.mk (['新', ' '] ++ '(' :: "new)".data)) =
      pyStrip (String.mk ['新', ' ']) ∧
    ∀ (st : LoadState) (r : CompoundRecord),
      (processCompound st r).tangutToChinese = st.tangutToChinese ∧
      (processCompound st r).chineseToTangut = st.chineseToTangut :=
  c3_before_paren_extraction ['新', ' '] "new)".data (by decide) (by decide)

/-- C5 counterexample: a compound record with no trailing parenthesized
group stores the sentinel `<?N/A_COMPOUND_PHONETICS?>`, not the
`<?COMPOUND_PHONETICS_N/A?>` spelling the claim states. -/
theorem c5_sentinel_spelling_fails :
    (parseProposed "𘞗").2 = "<?N/A_COMPOUND_PHONETICS?>" ∧
    (parseProposed "𘞗").2 ≠ "<?COMPOUND_PHONETICS_N/A?>" ∧
    dictLookup (engIndex (loadTangutData (some []) (some [c5Compound]))) "c"
      = some [⟨"𘞗", "<?N/A_COMPOUND_PHONETICS?>", "lit"⟩] := by
  refine ⟨by decide, by decide, by decide⟩

/-- C5 (amended): for every proposed-unit field with no trailing
parenthesized phonetic group, or that fails the script's symbol pattern
altogether, the stored phonetics is exactly the sentinel string
`<?N/A_COMPOUND_PHONETICS?>`. -/
theorem c5_compound_sentinel (raw : String)
    (h : (raw.data.takeWhile isTangutChar).isEmpty = true ∨
      parsePhonGroup (raw.data.dropWhile isTangutChar) = none) :
    (parseProposed raw).2 = naCompoundPhon := by
  unfold parseProposed
  by_cases hrun : (raw.data.takeWhile isTangutChar).isEmpty = true
  · simp [hrun]
  · have h2 : parsePhonGroup (raw.data.dropWhile isTangutChar) = none := by
      rcases h with h | h
      · exact absurd h hrun
      · exact h
    simp [hrun, h2]

/-- C5 witness: the amended sentinel statement at the concrete record
`𘞗` (no phonetic group at all). -/
theorem c5_compound_sentinel_witness :
    (parseProposed "𘞗").2 = naCompoundPhon :=
  c5_compound_sentinel "𘞗" (Or.inr (by decide))

/-- C7: every finalized word-index value list is the first-occurrence
dedup of the accumulated list: it has no duplicated
`(unit, phonetics, originalMeaning)` entry, is a sublist of the
pre-finalization list (so surviving candidates keep their insertion
order), has the same members; and inserting the identical entry twice
yields exactly one stored candidate. -/
theorem c7_word_index_dedup :
    (∀ (lf : List AtomicRecord) (cd : List CompoundRecord) (k : String)
        (v : List Candidate),
      dictLookup (engIndex (loadTangutData (some lf) (some cd))) k = some v →
      ∃ v0, dictLookup (buildState lf cd).englishToTangut k = some v0 ∧
        v = dedupEntries v0 ∧ v.Nodup ∧ List.Sublist v v0 ∧
        (∀ x, x ∈ v ↔ x ∈ v0)) ∧
    ∀ e : Candidate, dedupEntries [e, e] = [e] := by
  constructor
  · intro lf cd k v h
    have hload : engIndex (loadTangutData (some lf) (some cd)) =
        finalizeEnglish (buildState lf cd).englishToTangut := rfl
    rw [hload, dictLookup_finalizeEnglish] at h
    rcases Option.map_eq_some'.mp h with ⟨v0, hv0, rfl⟩
    refine ⟨v0, hv0, rfl, nodup_dedupEntriesAux v0 [], sublist_dedupEntriesAux v0 [],
      fun x => mem_dedupEntries_iff x v0⟩
  · exact dedupEntries_pair

/-- C7 witness: the dedup characterization applied to a concrete load in
which the candidate for `seed` is accumulated four times and survives
once. -/
theorem c7_word_index_dedup_witness :
    ∃ v0, dictLookup (buildState [⟨"X", "seed", "seed", "p1", ""⟩] []).englishToTangut
        "seed" = some v0 ∧
      [Candidate.mk "X" "p1" "seed"] = dedupEntries v0 ∧
      [Candidate.mk "X" "p1" "seed"].Nodup ∧
      List.Sublist [Candidate.mk "X" "p1" "seed"] v0 ∧
      (∀ x, x ∈ [Candidate.mk "X" "p1" "seed"] ↔ x ∈ v0) :=
  c7_word_index_dedup.1 [⟨"X", "seed", "seed", "p1", ""⟩] [] "seed"
    [Candidate.mk "X" "p1" "seed"] (by decide)

/-- A word-index entry whose two candidates share the unit `U` but have
phonetics `b` and `a` (in that stored order). -/
def c6Dict : Dict (List Candidate) :=
  [("w", [⟨"U", "b", "m1"⟩, ⟨"U", "a", "m2"⟩])]

/-- The stored candidate list of `c6Dict` at key `w`. -/
def c6Matches : List Candidate := [⟨"U", "b", "m1"⟩, ⟨"U", "a", "m2"⟩]

/-- The empty loop accumulator of the translation loops. -/
def emptyAcc : List String × List String × List String := ([], [], [])

/-- C4: two atomic records with the same key, the first with blank
phonetics (stored as the missing-phonetics sentinel) and the second with a
non-blank, non-sentinel phonetics, end with the second record's phonetics
and the insertion-ordered deduplicated union of both records' meaning and
keyword strings. -/
theorem c4_phonetics_upgrade (r1 r2 : AtomicRecord) (c p m1 k1 m2 k2 : String)
    (h1c : pyStrip r1.character = c) (hc : c ≠ "")
    (h1p : pyStrip r1.phonetics = "")
    (h1m : pyStrip r1.meaning = m1) (h1k : pyStrip r1.keyword = k1)
    (h2c : pyStrip r2.character = c)
    (h2p : pyStrip r2.phonetics = p) (hp : p ≠ "") (hps : p ≠ missingPhon)
    (h2m : pyStrip r2.meaning = m2) (h2k : pyStrip r2.keyword = k2)
    (hm1 : m1 ≠ "") (hm1q : m1 ≠ "?") (hk1 : k1 ≠ "") (hk1q : k1 ≠ "?")
    (hm2 : m2 ≠ "") (hm2q : m2 ≠ "?") (hk2 : k2 ≠ "") (hk2q : k2 ≠ "?") :
    dictLookup (symIndex (loadTangutData (some [r1, r2]) (some []))) c
      = some ⟨p, [m1, k1, m2, k2].foldl addNewMeaning []⟩ := by
  have h1 : (processAtomic initState r1).tangutCharData
      = [(c, ⟨missingPhon, addNewMeaning (addNewMeaning [] m1) k1⟩)] := by
    simp only [processAtomic, h1c, h1p, h1m, h1k, initState]
    rw [if_neg hc]
    simp [dictContains, dictLookup, addMeaningTo, modifyEntry, hm1, hm1q, hk1, hk1q]
  have h2 : ∀ (st : LoadState) (L : List String),
      st.tangutCharData = [(c, ⟨missingPhon, L⟩)] →
      (processAtomic st r2).tangutCharData
        = [(c, ⟨p, addNewMeaning (addNewMeaning L m2) k2⟩)] := by
    intro st L hst
    simp only [processAtomic, h2c, h2p, h2m, h2k, hst]
    rw [if_neg hc]
    simp [dictContains, dictLookup, addMeaningTo, modifyEntry, hm2, hm2q, hk2,
      hk2q, hp, hps]
  have hload : symIndex (loadTangutData (some [r1, r2]) (some [])) =
      (processAtomic (processAtomic initState r1) r2).tangutCharData := rfl
  rw [hload, h2 _ _ h1]
  simp [dictLookup, addNewMeaning]

/-- C4 witness: the upgrade-and-union statement at two concrete records
for the key `X`. -/
theorem c4_phonetics_upgrade_witness :
    dictLookup (symIndex (loadTangutData
        (some [⟨"X", "seed", "kw1", "", ""⟩, ⟨"X", "grain", "kw2", "p9", ""⟩])
        (some []))) "X"
      = some ⟨"p9", ["seed", "kw1", "grain", "kw2"].foldl addNewMeaning []⟩ :=
  c4_phonetics_upgrade ⟨"X", "seed", "kw1", "", ""⟩ ⟨"X", "grain", "kw2", "p9", ""⟩
    "X" "p9" "seed" "kw1" "grain" "kw2" rfl (by decide) rfl rfl rfl rfl rfl
    (by decide) (by decide) rfl rfl (by decide) (by decide) (by decide) (by decide)
    (by decide) (by decide) (by decide) (by decide)

/-- C6: a word lookup that returns candidates sorts them ascending by the
pair `(unit, phonetics)` (the sorted list is `candLE`-sorted and a
permutation of the stored list), and the combined rendering uses exactly
the first element after the sort for both the emitted unit and the emitted
phonetics. -/
theorem c6_candidate_ranking (dict : Dict (List Candidate))
    (acc : List String × List String × List String) (w : String)
    (ms : List Candidate) (hw : dictLookup dict w = some ms) (hne : ms ≠ []) :
    List.Sorted candLE (sortMatches ms) ∧ (sortMatches ms).Perm ms ∧
    ∃ c cs, sortMatches ms = c :: cs ∧
      e2tStep dict acc w =
        (acc.1 ++ [q1 ++ w ++ q1 ++ ": " ++
            String.intercalate "; " ((c :: cs).map renderOption)],
          acc.2.1 ++ [c.char], acc.2.2 ++ [c.phonetics]) := by
  have hsorted : List.Sorted candLE (sortMatches ms) :=
    List.sorted_insertionSort candLE ms
  have hperm : (sortMatches ms).Perm ms := List.perm_insertionSort candLE ms
  refine ⟨hsorted, hperm, ?_⟩
  have hne' : sortMatches ms ≠ [] := by
    intro h0
    have h1 := hperm
    rw [h0] at h1
    exact hne h1.symm.eq_nil
  obtain ⟨c, cs, hcs⟩ := List.exists_cons_of_ne_nil hne'
  have hie : ms.isEmpty = false := by
    cases ms with
    | nil => exact absurd rfl hne
    | cons a t => rfl
  refine ⟨c, cs, hcs, ?_⟩
  simp [e2tStep, hw, hie, hcs]

/-- C6 witness: the ranking statement at a key whose two candidates share
the unit and have phonetics `b` and `a`. -/
theorem c6_candidate_ranking_witness :
    List.Sorted candLE (sortMatches c6Matches) ∧
    (sortMatches c6Matches).Perm c6Matches ∧
    ∃ c cs, sortMatches c6Matches = c :: cs ∧
      e2tStep c6Dict emptyAcc "w" =
        (emptyAcc.1 ++ [q1 ++ "w" ++ q1 ++ ": " ++
            String.intercalate "; " ((c :: cs).map renderOption)],
          emptyAcc.2.1 ++ [c.char], emptyAcc.2.2 ++ [c.phonetics]) :=
  c6_candidate_ranking c6Dict emptyAcc "w" c6Matches (by decide) (by decide)

/-- C8 counterexample: normalization is not idempotent for every string —
for the input `İ` (U+0130, a word character) the first pass keeps it and
lowercases it to `i` followed by the combining dot U+0307, while the
second pass strips U+0307 (neither a word nor a space character), giving a
different key. -/
theorem c8_normalize_not_idempotent :
    normalizeKey "İ" = "i\u0307" ∧
    normalizeKey (normalizeKey "İ") = "i" ∧
    normalizeKey (normalizeKey "İ") ≠ normalizeKey "İ" := by
  refine ⟨by decide, by decide, by decide⟩

/-- C8 (amended): normalization is idempotent on every string whose
retained scalars lowercase to single scalars that are again word or space
characters — i.e. in the absence of case expansion such as
U+0130 → U+0069 U+0307, whose combining mark the second pass strips. -/
theorem c8_normalize_idempotent (s : String)
    (h : ∀ c ∈ s.data, wordOrSpace c = true →
      ∀ d ∈ lowerScalar c, wordOrSpace d = true ∧ lowerScalar d = [d]) :
    normalizeKey (normalizeKey s) = normalizeKey s := by
  unfold normalizeKey
  congr 1
  show (((((s.data.filter wordOrSpace).map lowerScalar).flatten.filter
        wordOrSpace).map lowerScalar).flatten)
      = ((s.data.filter wordOrSpace).map lowerScalar).flatten
  have hmem : ∀ d ∈ ((s.data.filter wordOrSpace).map lowerScalar).flatten,
      wordOrSpace d = true ∧ lowerScalar d = [d] := by
    intro d hd
    rcases List.mem_flatten.mp hd with ⟨l, hl, hdl⟩
    rcases List.mem_map.mp hl with ⟨c, hc, rfl⟩
    have hcf := List.mem_filter.mp hc
    exact h c hcf.1 hcf.2 d hdl
  rw [List.filter_eq_self.mpr (fun d hd => (hmem d hd).1)]
  exact flatten_map_lowerScalar_self _ (fun d hd => (hmem d hd).2)

/-- C8 witness: idempotence at the concrete mixed-case key `Seed Water`,
all of whose scalars lowercase to single word-or-space scalars. -/
theorem c8_normalize_idempotent_witness :
    normalizeKey (normalizeKey "Seed Water") = normalizeKey "Seed Water" :=
  c8_normalize_idempotent "Seed Water" (by decide)

/-- C10: when a later atomic record upgrades a symbol's phonetics from the
missing-phonetics sentinel to a real value `p`, the word-index candidate
already inserted for that symbol is left unchanged: the final symbol-index
entry carries `p` while the stored candidate still carries the sentinel it
was inserted with. -/
theorem c10_word_index_keeps_sentinel (r1 r2 : AtomicRecord) (c p m w : String)
    (h1c : pyStrip r1.character = c) (hc : c ≠ "")
    (h1p : pyStrip r1.phonetics = "")
    (h1m : pyStrip r1.meaning = m) (hm : m ≠ "") (hmq : m ≠ "?")
    (h1k : pyStrip r1.keyword = "")
    (h2c : pyStrip r2.character = c)
    (h2p : pyStrip r2.phonetics = p) (hp : p ≠ "") (hps : p ≠ missingPhon)
    (h2m : pyStrip r2.meaning = "") (h2k : pyStrip r2.keyword = "")
    (hw : normalizeKey m = w) (hwne : w ≠ "") (hsplit : pySplit w = [w]) :
    dictLookup (symIndex (loadTangutData (some [r1, r2]) (some []))) c
      = some ⟨p, [m]⟩ ∧
    dictLookup (engIndex (loadTangutData (some [r1, r2]) (some []))) w
      = some [⟨c, missingPhon, m⟩] := by
  have h1d : (processAtomic initState r1).tangutCharData
      = [(c, ⟨missingPhon, [m]⟩)] := by
    simp only [processAtomic, h1c, h1p, h1m, h1k, initState]
    rw [if_neg hc]
    simp [dictContains, dictLookup, addMeaningTo, modifyEntry, addNewMeaning,
      hm, hmq]
  have h1e : (processAtomic initState r1).englishToTangut
      = [(w, [⟨c, missingPhon, m⟩, ⟨c, missingPhon, m⟩])] := by
    simp only [processAtomic, h1c, h1p, h1m, h1k, initState]
    rw [if_neg hc]
    simp only [addToEnglishMap, hw, hsplit]
    simp [setdefaultAppend, hm, hmq, hwne]
  have h2d : ∀ (st : LoadState) (L : List String),
      st.tangutCharData = [(c, ⟨missingPhon, L⟩)] →
      (processAtomic st r2).tangutCharData = [(c, ⟨p, L⟩)] := by
    intro st L hst
    simp only [processAtomic, h2c, h2p, h2m, h2k, hst]
    rw [if_neg hc]
    simp [dictContains, dictLookup, modifyEntry, hp, hps]
  have h2e : ∀ st : LoadState,
      (processAtomic st r2).englishToTangut = st.englishToTangut := by
    intro st
    simp only [processAtomic, h2c, h2p, h2m, h2k]
    rw [if_neg hc]
    simp
  have hsym : symIndex (loadTangutData (some [r1, r2]) (some [])) =
      (processAtomic (processAtomic initState r1) r2).tangutCharData := rfl
  have heng : engIndex (loadTangutData (some [r1, r2]) (some [])) =
      finalizeEnglish
        (processAtomic (processAtomic initState r1) r2).englishToTangut := rfl
  constructor
  · rw [hsym, h2d _ _ h1d]
    simp [dictLookup]
  · rw [heng, h2e, h1e]
    rw [dictLookup_finalizeEnglish]
    simp [dictLookup, dedupEntries_pair]

/-- C10 witness: the sentinel-retention statement at two concrete records
for the key `X` and the word key `seed`. -/
theorem c10_word_index_keeps_sentinel_witness :
    dictLookup (symIndex (loadTangutData
        (some [⟨"X", "seed", "", "", ""⟩, ⟨"X", "", "", "p2", ""⟩]) (some []))) "X"
      = some ⟨"p2", ["seed"]⟩ ∧
    dictLookup (engIndex (loadTangutData
        (some [⟨"X", "seed", "", "", ""⟩, ⟨"X", "", "", "p2", ""⟩]) (some []))) "seed"
      = some [⟨"X", missingPhon, "seed"⟩] :=
  c10_word_index_keeps_sentinel ⟨"X", "seed", "", "", ""⟩ ⟨"X", "", "", "p2", ""⟩
    "X" "p2" "seed" "seed" rfl (by decide) rfl rfl (by decide) (by decide) rfl
    rfl rfl (by decide) (by decide) rfl rfl (by decide) (by decide) (by decide)

/-- C9: a failed source load (file absent, malformed or undecodable, i.e.
`load_json_data` returned `None`) makes the whole loader return no usable
index set, while a record with a blank identifying field (the symbol for
atomic records, the proposed word for compound records) is skipped with
the state unchanged and processing continues. -/
theorem c9_fatal_load_vs_record_skip :
    (∀ (lf : Option (List AtomicRecord)) (cd : Option (List CompoundRecord)),
      lf = none ∨ cd = none → loadTangutData lf cd = none) ∧
    (∀ (st : LoadState) (r : AtomicRecord),
      pyStrip r.character = "" → processAtomic st r = st) ∧
    ∀ (st : LoadState) (r : CompoundRecord),
      pyStrip r.proposedRaw = "" → processCompound st r = st := by
  refine ⟨?_, ?_, ?_⟩
  · intro lf cd h
    rcases h with rfl | rfl
    · cases cd <;> rfl
    · cases lf <;> rfl
  · intro st r h
    simp only [processAtomic, h]
    rfl
  · intro st r h
    simp only [processCompound, h]
    rfl

/-- C9 witness: the fatal-load and record-skip statements at concrete
inputs. -/
theorem c9_fatal_load_vs_record_skip_witness :
    loadTangutData none (some []) = none ∧
    processAtomic initState ⟨"", "m", "k", "p", "c"⟩ = initState ∧
    processCompound initState ⟨"mc", "", "lit"⟩ = initState :=
  ⟨c9_fatal_load_vs_record_skip.1 none (some []) (Or.inl rfl),
    c9_fatal_load_vs_record_skip.2.1 initState ⟨"", "m", "k", "p", "c"⟩ rfl,
    c9_fatal_load_vs_record_skip.2.2 initState ⟨"mc", "", "lit"⟩ rfl⟩

end Tangut
